import Mathlib

/-!
Shallow embedding of the exyzzy/lsys repository: the L-system string rewriter and
turtle interpreter (package lsys, file lsys.go) and the 2d drawing transform engine
(package drawing, file drawing/drawing.go).  Go float64 arithmetic is modelled by
the real numbers; Go strings iterated rune by rune are modelled by lists of
characters; Go runtime panics (out-of-range slice indexing) are modelled by
Option-valued functions returning none.
-/

namespace Lsys

/-! Grammar rewriter, function LSys of lsys.go. -/

/-- Rule mapping of the rewriter.  The Go `map[string]string` is consulted only at
single-character keys (`rules[string(v)]`), so it is modelled as an association
list from the rune to the replacement string (itself a list of runes). -/
abbrev Rules := List (Char × List Char)

/-- The four control symbols of the grammar: the `case '-', '+', '[', ']'` arm of
the switch inside `LSys`. -/
def controlChar (c : Char) : Bool :=
  c == '-' || c == '+' || c == '[' || c == ']'

/-- One rewriting pass: the inner `for _, v := range s` loop of `LSys`
(lsys.go lines 18-33).  `ns` is the accumulator string being built; control
symbols are copied, the space character is skipped (`case ' '`), every other
character is looked up in the rules and its replacement appended, and a missing
rule aborts the whole call with the error `"no rule for: <v>"` (Go returns the
zero-value result `""` together with the error, so no partial result escapes). -/
def lsysPass (rules : Rules) : List Char → List Char → Except String (List Char)
  | [], ns => .ok ns
  | v :: rest, ns =>
    if controlChar v then lsysPass rules rest (ns ++ [v])
    else if v == ' ' then lsysPass rules rest ns
    else
      match rules.lookup v with
      | none => .error ("no rule for: " ++ Char.toString v)
      | some r => lsysPass rules rest (ns ++ r)

/-- The outer `for i := 0; i < level; i++` loop of `LSys`: iterate `lsysPass`,
propagating the first error. -/
def lsysIter (rules : Rules) : Nat → List Char → Except String (List Char)
  | 0, s => .ok s
  | n + 1, s =>
    match lsysPass rules s [] with
    | .error e => .error e
    | .ok ns => lsysIter rules n ns

/-- `LSys(axiom, rules, level)` of lsys.go lines 15-38: `level` rewriting passes
starting from the axiom. -/
def LSys (axm : List Char) (rules : Rules) (level : Nat) : Except String (List Char) :=
  lsysIter rules level axm

/-- One rewriting pass as the specification words it, parameterised by the
predicate `drop` selecting the characters that are dropped (the specification
says every whitespace character; the code drops only `' '`).  Each character is
mapped independently: control symbols pass through, dropped characters vanish,
every other character is replaced literally by its rule mapping, and a missing
rule is an error.  This is the spec-side definition used to compare against
`lsysPass`. -/
def rewriteChars (drop : Char → Bool) (rules : Rules) : List Char → Except String (List Char)
  | [] => .ok []
  | c :: rest =>
    if controlChar c then (rewriteChars drop rules rest).map (fun t => c :: t)
    else if drop c then rewriteChars drop rules rest
    else
      match rules.lookup c with
      | none => .error ("no rule for: " ++ Char.toString c)
      | some r => (rewriteChars drop rules rest).map (fun t => r ++ t)

/-- Iterated spec-side rewriting: `n` passes of `rewriteChars`. -/
def specRewrite (drop : Char → Bool) (rules : Rules) : Nat → List Char → Except String (List Char)
  | 0, s => .ok s
  | n + 1, s =>
    match rewriteChars drop rules s with
    | .error e => .error e
    | .ok ns => specRewrite drop rules n ns

/-- Did the computation fail? -/
def isErr {ε α : Type} : Except ε α → Bool
  | .error _ => true
  | .ok _ => false

/-- A character on which the code's rewriting pass fails: not a control symbol,
not the space character, and absent from the rules (the `default` arm of the
switch in `LSys` with `ok == false`). -/
def undefinedSym (rules : Rules) (c : Char) : Bool :=
  !controlChar c && !(c == ' ') && (rules.lookup c).isNone

/-- A character the claim calls undefined: not a control symbol, not whitespace,
and absent from the rules. -/
def undefinedSymWS (rules : Rules) (c : Char) : Bool :=
  !controlChar c && !c.isWhitespace && (rules.lookup c).isNone

/-- Does one left-to-right scan of a rewriting pass encounter a character
satisfying `bad`?  The scan stops at the first character the code fails on
(`undefinedSym`), since characters after that point are never reached. -/
def passHits (bad : Char → Bool) (rules : Rules) : List Char → Bool
  | [] => false
  | v :: rest =>
    if bad v then true
    else if undefinedSym rules v then false
    else passHits bad rules rest

/-- Does one of the `n` rewriting passes starting from `s` encounter a character
satisfying `bad` during its scan? -/
def hitsBad (bad : Char → Bool) (rules : Rules) : Nat → List Char → Bool
  | 0, _ => false
  | n + 1, s =>
    if passHits bad rules s then true
    else
      match lsysPass rules s [] with
      | .ok ns => hitsBad bad rules n ns
      | .error _ => false

/-! Drawing data model, drawing/drawing.go lines 25-46. -/

/-- FPoint: a floating point 2d point (float64 modelled by the reals). -/
@[ext]
structure FPoint where
  x : ℝ
  y : ℝ

/-- color.RGBA: four 8-bit channels. -/
structure RGBA where
  r : Nat
  g : Nat
  b : Nat
  a : Nat

/-- Path: a single path of connected points with RGBA color. -/
structure Path where
  points : List FPoint
  color : RGBA

/-- Drawing: an array of paths. -/
structure Drawing where
  paths : List Path

/-- FRect: an FPoint min/max rectangle. -/
@[ext]
structure FRect where
  min : FPoint
  max : FPoint

/-- ColorBLACK of drawing.go. -/
def ColorBLACK : RGBA := ⟨0, 0, 0, 255⟩

noncomputable section

/-! Drawing operations, drawing/drawing.go. -/

/-- MoveTo (drawing.go lines 99-105): starts a new Path with the given color whose
first point is `point`, appended after the existing paths. -/
def MoveTo (drawing : Drawing) (point : FPoint) (color : RGBA) : Drawing :=
  ⟨drawing.paths ++ [⟨[point], color⟩]⟩

/-- Append a point to the last path of a list of paths, the effect of
`drawing.Paths[last].Points = append(...)` with `last = len(drawing.Paths)-1`;
on an empty list the Go index `-1` is an out-of-range panic, modelled as none. -/
def appendLast (point : FPoint) : List Path → Option (List Path)
  | [] => none
  | [pa] => some [⟨pa.points ++ [point], pa.color⟩]
  | pa :: pb :: rest => (appendLast point (pb :: rest)).map (fun l => pa :: l)

/-- LineTo (drawing.go lines 108-112): adds a new point at the end of the current
(last) Path. -/
def LineTo (drawing : Drawing) (point : FPoint) : Option Drawing :=
  (appendLast point drawing.paths).map Drawing.mk

/-- The pure counterpart of `Traverse` with a point function (drawing.go lines
134-156): the point function is applied to every point of every path in order,
in place, which amounts to mapping a function over every point while leaving the
path structure and colors untouched. -/
def mapDrawing (f : FPoint → FPoint) (drawing : Drawing) : Drawing :=
  ⟨drawing.paths.map (fun pa => ⟨pa.points.map f, pa.color⟩)⟩

/-- All points of a drawing, in the order `Traverse` visits them. -/
def allPoints (drawing : Drawing) : List FPoint :=
  drawing.paths.flatMap Path.points

/-- BoundsPt (drawing.go lines 161-167): widen the running rectangle by one
point, componentwise min/max. -/
def boundsStep (pb : FRect) (pt : FPoint) : FRect :=
  ⟨⟨min pb.min.x pt.x, min pb.min.y pt.y⟩, ⟨max pb.max.x pt.x, max pb.max.y pt.y⟩⟩

/-- Bounds (drawing.go lines 170-179): the rectangle starts at
`Paths[0].Points[0]` (indexing an empty drawing or an empty first path is an
out-of-range panic, modelled as none) and is then widened over every point of
every path via Traverse/BoundsPt. -/
def Bounds (drawing : Drawing) : Option FRect :=
  match drawing.paths with
  | [] => none
  | pa :: _ =>
    match pa.points with
    | [] => none
    | q :: _ => some ((allPoints drawing).foldl boundsStep ⟨q, q⟩)

/-- TranslatePt (drawing.go lines 184-188). -/
def TranslatePt (delta : FPoint) (pt : FPoint) : FPoint :=
  ⟨pt.x + delta.x, pt.y + delta.y⟩

/-- Translate (drawing.go lines 191-194): add `delta` to every point. -/
def Translate (drawing : Drawing) (delta : FPoint) : Drawing :=
  mapDrawing (TranslatePt delta) drawing

/-- ScalePt (drawing.go lines 199-203). -/
def ScalePt (scalar : ℝ) (pt : FPoint) : FPoint :=
  ⟨pt.x * scalar, pt.y * scalar⟩

/-- Scale (drawing.go lines 206-209): multiply every point by `scalar`. -/
def Scale (drawing : Drawing) (scalar : ℝ) : Drawing :=
  mapDrawing (ScalePt scalar) drawing

/-- VFlipPt (drawing.go lines 237-239): `newY = bounds.Max.Y - y + bounds.Min.Y`. -/
def VFlipPt (db : FRect) (pt : FPoint) : FPoint :=
  ⟨pt.x, db.max.y - pt.y + db.min.y⟩

/-- HFlipPt (drawing.go lines 242-244): `newX = bounds.Max.X - x + bounds.Min.X`. -/
def HFlipPt (db : FRect) (pt : FPoint) : FPoint :=
  ⟨db.max.x - pt.x + db.min.x, pt.y⟩

/-- Flip (drawing.go lines 247-255): compute the current bounds (a panic on an
empty drawing, hence Option) and reflect every point across the corresponding
mid-line of the bounding box. -/
def Flip (drawing : Drawing) (vert : Bool) : Option Drawing :=
  (Bounds drawing).map (fun db =>
    if vert then mapDrawing (VFlipPt db) drawing else mapDrawing (HFlipPt db) drawing)

/-- CenterWithMargin (drawing.go lines 258-278): one uniform scale factor, the
min of the two per-axis fits after margins, then a translation taking the center
of the scaled bounding box (the code rescales the stored bounds fields rather
than recomputing them) to the center of the target rectangle. -/
def CenterWithMargin (drawing : Drawing) (tb : FRect) (tm : FPoint) : Option Drawing :=
  match Bounds drawing with
  | none => none
  | some db =>
    let scale := min
      (((tb.max.x - tb.min.x) - tm.x * 2 * (tb.max.x - tb.min.x)) / (db.max.x - db.min.x))
      (((tb.max.y - tb.min.y) - tm.y * 2 * (tb.max.y - tb.min.y)) / (db.max.y - db.min.y))
    let d1 := Scale drawing scale
    let dbs : FRect := ⟨⟨db.min.x * scale, db.min.y * scale⟩, ⟨db.max.x * scale, db.max.y * scale⟩⟩
    let delta : FPoint := ⟨(tb.max.x + tb.min.x) / 2 - (dbs.max.x + dbs.min.x) / 2,
                           (tb.max.y + tb.min.y) / 2 - (dbs.max.y + dbs.min.y) / 2⟩
    some (Translate d1 delta)

/-! Geometry helpers, drawing/drawing.go lines 370-405. -/

/-- ToRadians (drawing.go lines 370-372). -/
def ToRadians (degrees : ℝ) : ℝ := degrees * (Real.pi / 180)

/-- PointFromTheta (drawing.go lines 401-405): the point at the given angle
(degrees) and distance from `p0`. -/
def PointFromTheta (p0 : FPoint) (theta length : ℝ) : FPoint :=
  ⟨length * Real.cos (ToRadians theta) + p0.x, length * Real.sin (ToRadians theta) + p0.y⟩

/-! Turtle interpreter, function DrawLSys of lsys.go lines 40-78. -/

/-- StackItem (lsys.go lines 40-43): a (position, heading) snapshot. -/
structure StackItem where
  point : FPoint
  theta : ℝ

/-- The interpreter state: the drawing built so far, the current position `p`,
the current heading `theta` (degrees) and the branch stack (topmost first; the
Go code pushes and pops at the end of a slice, the same LIFO discipline). -/
structure TState where
  drw : Drawing
  p : FPoint
  theta : ℝ
  stack : List StackItem

/-- One iteration of the `for _, v := range lSys` loop of `DrawLSys`: `F` draws a
unit segment, `-`/`+` turn, `f` moves without drawing (opening a new path only
when `onePath` is false), `[` pushes the state, `]` pops it (on an empty stack
the Go code reads `stack[len(stack)-1] = stack[-1]`, an out-of-range panic,
modelled as none), and every other character is ignored. -/
def drawStep (angle : ℝ) (color : RGBA) (onePath : Bool) (st : TState) (v : Char) :
    Option TState :=
  if v == 'F' then
    let p := PointFromTheta st.p st.theta 1
    (LineTo st.drw p).map (fun drw => { st with drw := drw, p := p })
  else if v == '-' then some { st with theta := st.theta - angle }
  else if v == '+' then some { st with theta := st.theta + angle }
  else if v == 'f' then
    let p := PointFromTheta st.p st.theta 1
    some { st with p := p, drw := if onePath then st.drw else MoveTo st.drw p color }
  else if v == '[' then some { st with stack := ⟨st.p, st.theta⟩ :: st.stack }
  else if v == ']' then
    match st.stack with
    | [] => none
    | se :: rest =>
      some { st with p := se.point,
                     drw := if onePath then st.drw else MoveTo st.drw se.point color,
                     theta := se.theta,
                     stack := rest }
  else some st

/-- Run the interpreter loop over a list of symbols. -/
def runSyms (angle : ℝ) (color : RGBA) (onePath : Bool) : TState → List Char → Option TState
  | st, [] => some st
  | st, v :: rest =>
    match drawStep angle color onePath st v with
    | none => none
    | some st2 => runSyms angle color onePath st2 rest

/-- The state at the top of `DrawLSys`: position at the origin, heading `theta`,
empty stack, and a first `MoveTo(FPoint{0,0}, color)` already issued on the
caller-supplied drawing. -/
def initState (drw : Drawing) (theta : ℝ) (color : RGBA) : TState :=
  ⟨MoveTo drw ⟨0, 0⟩ color, ⟨0, 0⟩, theta, []⟩

/-- DrawLSys (lsys.go lines 46-78): interpret the symbol string into the drawing.
The Go function mutates `drw` in place and returns nothing; the model returns
the final drawing, or none where the Go code panics. -/
def DrawLSys (drw : Drawing) (lSys : List Char) (theta angle : ℝ) (color : RGBA)
    (onePath : Bool) : Option Drawing :=
  (runSyms angle color onePath (initState drw theta color) lSys).map TState.drw

/-- The structural skeleton of a drawing: for each path, in order, its number of
points and its color.  Transforms that only move coordinates leave it unchanged. -/
def shape (drawing : Drawing) : List (Nat × RGBA) :=
  drawing.paths.map (fun pa => (pa.points.length, pa.color))

/-- The first point of the first path of a drawing, when both exist. -/
def headPoint (drawing : Drawing) : Option FPoint :=
  drawing.paths.head?.bind (fun pa => pa.points.head?)

/-- Position and heading of an interpreter state. -/
def stProj (st : TState) : FPoint × ℝ := (st.p, st.theta)

/-- The image of a rectangle under the reflection `VFlipPt db`, used to track
how `Bounds` transforms under a vertical flip. -/
def vflipRect (db r : FRect) : FRect :=
  ⟨⟨r.min.x, db.max.y - r.max.y + db.min.y⟩, ⟨r.max.x, db.max.y - r.min.y + db.min.y⟩⟩

/-- The image of a rectangle under the monotone affine map scaling by `s ≥ 0`
and translating by `dl`, used to track how `Bounds` transforms under Scale
followed by Translate. -/
def affRect (s : ℝ) (dl : FPoint) (r : FRect) : FRect :=
  ⟨⟨r.min.x * s + dl.x, r.min.y * s + dl.y⟩, ⟨r.max.x * s + dl.x, r.max.y * s + dl.y⟩⟩

end

/-! Theorems about the rewriter. -/

/-- Auxiliary: the accumulator-passing pass of the code equals the spec-side pass
that drops only the space character, prefixed with the accumulator. -/
theorem lsysPass_eq_rewriteChars (rules : Rules) (s : List Char) (acc : List Char) :
    lsysPass rules s acc =
      (rewriteChars (fun c => c == ' ') rules s).map (fun t => acc ++ t) := by
  induction s generalizing acc with
  | nil => simp [lsysPass, rewriteChars, Except.map]
  | cons v rest ih =>
    cases hc : controlChar v with
    | true =>
      simp only [lsysPass, rewriteChars, hc, if_true, ih]
      cases rewriteChars (fun c => c == ' ') rules rest with
      | error e => simp [Except.map]
      | ok t => simp [Except.map]
    | false =>
      cases hs : v == ' ' with
      | true => simp [lsysPass, rewriteChars, hc, hs, ih]
      | false =>
        cases hr : rules.lookup v with
        | none => simp [lsysPass, rewriteChars, hc, hs, hr, Except.map]
        | some r =>
          simp only [lsysPass, rewriteChars, hc, hs, hr, if_false, Bool.false_eq_true, ih]
          cases rewriteChars (fun c => c == ' ') rules rest with
          | error e => simp [Except.map]
          | ok t => simp [Except.map]

/-- Claim C3 (amended): each rewriting pass of `LSys` maps the string character
by character: the control symbols pass through unchanged, the space character
(and only the space character, not every whitespace character) is dropped, and
every other character is replaced literally by its mapped string from the rules,
not re-expanded within the same pass; with zero iterations the axiom is returned
unchanged. -/
theorem c3_rewriter_pass (axm : List Char) (rules : Rules) (n : Nat) :
    LSys axm rules n = specRewrite (fun c => c == ' ') rules n axm ∧
    LSys axm rules 0 = .ok axm := by
  refine ⟨?_, rfl⟩
  induction n generalizing axm with
  | zero => rfl
  | succ m ih =>
    show lsysIter rules (m + 1) axm = _
    simp only [lsysIter, specRewrite, lsysPass_eq_rewriteChars rules axm []]
    cases rewriteChars (fun c => c == ' ') rules axm with
    | error e => simp [Except.map]
    | ok ns => simpa [Except.map] using ih ns

/-- Claim C3 counterexample: a tab character is whitespace, yet the code does not
drop it — the pass looks it up in the rules and replaces it, so `LSys` keeps it
where the claimed pass (dropping every whitespace character) would erase it. -/
theorem c3_counterexample :
    LSys ['\t'] [('\t', ['A'])] 1 = .ok ['A'] ∧
    specRewrite Char.isWhitespace [('\t', ['A'])] 1 ['\t'] = .ok [] :=
  ⟨rfl, rfl⟩

/-- Auxiliary: a pass of the code fails exactly when some character of the input
is an undefined symbol (not control, not space, no rule). -/
theorem lsysPass_isErr (rules : Rules) (s : List Char) (acc : List Char) :
    isErr (lsysPass rules s acc) = s.any (undefinedSym rules) := by
  induction s generalizing acc with
  | nil => rfl
  | cons v rest ih =>
    cases hc : controlChar v with
    | true => simp [lsysPass, hc, undefinedSym, ih]
    | false =>
      cases hs : v == ' ' with
      | true => simp [lsysPass, hc, hs, undefinedSym, ih]
      | false =>
        cases hr : rules.lookup v with
        | none => simp [lsysPass, hc, hs, hr, undefinedSym, isErr]
        | some r => simp [lsysPass, hc, hs, hr, undefinedSym, ih]

/-- Auxiliary: scanning for the code's own failing characters is the same as
asking whether any character of the string is one. -/
theorem passHits_undefinedSym (rules : Rules) (s : List Char) :
    passHits (undefinedSym rules) rules s = s.any (undefinedSym rules) := by
  induction s with
  | nil => rfl
  | cons v rest ih =>
    cases hb : undefinedSym rules v with
    | true => simp [passHits, hb]
    | false => simp [passHits, hb, ih]

/-- Claim C4 (amended): `LSys` fails if and only if, during some pass, it
encounters a character that is not a control symbol, not the space character
(rather than not whitespace, as claimed), and has no entry in the rule mapping;
on failure the error is surfaced to the caller and no partial result is
returned (the Except value carries no result). -/
theorem c4_undefined_symbol (axm : List Char) (rules : Rules) (n : Nat) :
    isErr (LSys axm rules n) = hitsBad (undefinedSym rules) rules n axm := by
  induction n generalizing axm with
  | zero => rfl
  | succ m ih =>
    show isErr (lsysIter rules (m + 1) axm) = _
    simp only [lsysIter, hitsBad, passHits_undefinedSym]
    cases hp : lsysPass rules axm [] with
    | error e =>
      have ha := lsysPass_isErr rules axm []
      rw [hp] at ha
      simp [← ha, isErr]
    | ok ns =>
      have ha := lsysPass_isErr rules axm []
      rw [hp] at ha
      simp only [isErr] at ha
      rw [← ha]
      simpa [isErr] using ih ns

/-- Claim C4 counterexample: on the axiom consisting of a single tab and empty
rules the code fails, although no character that is simultaneously non-control,
non-whitespace and ruleless is ever encountered — so failure is not equivalent
to the claimed condition. -/
theorem c4_counterexample :
    isErr (LSys ['\t'] [] 1) = true ∧
    hitsBad (undefinedSymWS []) [] 1 ['\t'] = false :=
  ⟨rfl, rfl⟩

/-! Theorems about the turtle interpreter. -/

/-- Claim C2: interpreting the one-symbol string consisting only of the
branch-close symbol fails: the pop handler reads `stack[len(stack)-1]`, that is
`stack[-1]`, on the empty branch stack, which is fatal to the interpretation —
no Drawing is returned to the caller. -/
theorem c2_stack_underflow (drw : Drawing) (theta angle : ℝ) (color : RGBA)
    (onePath : Bool) :
    DrawLSys drw [']'] theta angle color onePath = none := rfl

/-- Auxiliary: one interpreter step either leaves the drawing alone, starts a
new path at the end (only possible when `onePath` is false), or appends a point
to the last path. -/
theorem drawStep_drw (angle : ℝ) (color : RGBA) (onePath : Bool) (st st2 : TState)
    (v : Char) (h : drawStep angle color onePath st v = some st2) :
    st2.drw = st.drw ∨
      (onePath = false ∧ ∃ pt, st2.drw = MoveTo st.drw pt color) ∨
      (∃ pt l2, appendLast pt st.drw.paths = some l2 ∧ st2.drw = ⟨l2⟩) := by
  simp only [drawStep] at h
  split_ifs at h with hF hm hp2 hf hone hbr hcl hone2
  · simp only [LineTo] at h
    cases happ : appendLast (PointFromTheta st.p st.theta 1) st.drw.paths with
    | none => rw [happ] at h; simp at h
    | some l2 =>
      rw [happ] at h
      simp only [Option.map_some', Option.some.injEq] at h
      subst h
      exact Or.inr (Or.inr ⟨_, l2, happ, rfl⟩)
  · simp only [Option.some.injEq] at h
    subst h
    exact Or.inl rfl
  · simp only [Option.some.injEq] at h
    subst h
    exact Or.inl rfl
  · simp only [Option.some.injEq] at h
    subst h
    exact Or.inl rfl
  · simp only [Option.some.injEq] at h
    subst h
    simp only [Bool.not_eq_true] at hone
    exact Or.inr (Or.inl ⟨hone, _, rfl⟩)
  · simp only [Option.some.injEq] at h
    subst h
    exact Or.inl rfl
  · cases hstk : st.stack with
    | nil => rw [hstk] at h; simp at h
    | cons se rest =>
      rw [hstk] at h
      simp only [Option.some.injEq] at h
      subst h
      exact Or.inl rfl
  · cases hstk : st.stack with
    | nil => rw [hstk] at h; simp at h
    | cons se rest =>
      rw [hstk] at h
      simp only [Option.some.injEq] at h
      subst h
      simp only [Bool.not_eq_true] at hone2
      exact Or.inr (Or.inl ⟨hone2, _, rfl⟩)
  · simp only [Option.some.injEq] at h
    subst h
    exact Or.inl rfl

/-- Auxiliary: appending a point to the last path keeps the number of paths. -/
theorem appendLast_length (pt : FPoint) (l l2 : List Path)
    (h : appendLast pt l = some l2) : l2.length = l.length := by
  induction l generalizing l2 with
  | nil => simp [appendLast] at h
  | cons pa rest ih =>
    cases rest with
    | nil =>
      simp only [appendLast, Option.some.injEq] at h
      subst h
      rfl
    | cons pb rest2 =>
      simp only [appendLast] at h
      cases happ : appendLast pt (pb :: rest2) with
      | none => rw [happ] at h; simp at h
      | some l3 =>
        rw [happ] at h
        simp only [Option.map_some', Option.some.injEq] at h
        subst h
        simp [ih l3 happ]

/-- Auxiliary: appending a point to the last path of a nonempty path list keeps
the first path's first point. -/
theorem appendLast_head (pt q : FPoint) (pa : Path) (rest l2 : List Path)
    (h : appendLast pt (pa :: rest) = some l2) (hq : pa.points.head? = some q) :
    ∃ pa2 rest2, l2 = pa2 :: rest2 ∧ pa2.points.head? = some q := by
  cases rest with
  | nil =>
    simp only [appendLast, Option.some.injEq] at h
    subst h
    cases hpts : pa.points with
    | nil => rw [hpts] at hq; simp at hq
    | cons q0 t =>
      rw [hpts] at hq
      simp only [List.head?_cons, Option.some.injEq] at hq
      exact ⟨_, _, rfl, by simp [hpts, hq]⟩
  | cons pb rest2 =>
    simp only [appendLast] at h
    cases happ : appendLast pt (pb :: rest2) with
    | none => rw [happ] at h; simp at h
    | some l3 =>
      rw [happ] at h
      simp only [Option.map_some', Option.some.injEq] at h
      subst h
      exact ⟨pa, l3, rfl, hq⟩

/-- Auxiliary: one interpreter step preserves the fact that the first path of
the drawing starts at the origin. -/
theorem drawStep_origin (angle : ℝ) (color : RGBA) (onePath : Bool) (st st2 : TState)
    (v : Char) (h : drawStep angle color onePath st v = some st2)
    (hinv : ∃ pa rest, st.drw.paths = pa :: rest ∧ pa.points.head? = some ⟨0, 0⟩) :
    ∃ pa rest, st2.drw.paths = pa :: rest ∧ pa.points.head? = some ⟨0, 0⟩ := by
  obtain ⟨pa, rest, hp, hh⟩ := hinv
  rcases drawStep_drw angle color onePath st st2 v h with hd | ⟨-, pt, hd⟩ | ⟨pt, l2, happ, hd⟩
  · exact ⟨pa, rest, by rw [hd, hp], hh⟩
  · exact ⟨pa, rest ++ [⟨[pt], color⟩], by rw [hd]; simp [MoveTo, hp], hh⟩
  · rw [hp] at happ
    obtain ⟨pa2, rest2, hl2, hh2⟩ := appendLast_head pt _ pa rest l2 happ hh
    exact ⟨pa2, rest2, by rw [hd, hl2], hh2⟩

/-- Auxiliary: running the interpreter loop preserves the fact that the first
path of the drawing starts at the origin. -/
theorem runSyms_origin (angle : ℝ) (color : RGBA) (onePath : Bool) (l : List Char)
    (st st2 : TState) (h : runSyms angle color onePath st l = some st2)
    (hinv : ∃ pa rest, st.drw.paths = pa :: rest ∧ pa.points.head? = some ⟨0, 0⟩) :
    ∃ pa rest, st2.drw.paths = pa :: rest ∧ pa.points.head? = some ⟨0, 0⟩ := by
  induction l generalizing st with
  | nil =>
    simp only [runSyms, Option.some.injEq] at h
    subst h
    exact hinv
  | cons v rest ih =>
    simp only [runSyms] at h
    cases hs : drawStep angle color onePath st v with
    | none => rw [hs] at h; simp at h
    | some st1 =>
      rw [hs] at h
      exact ih st1 h (drawStep_origin angle color onePath st st1 v hs hinv)

/-- Claim C5: interpreting the single symbol `F` from start heading 0 with
singlePath=false produces a Drawing with exactly one Path holding exactly the
two points (0,0) and (1,0); and for every input string, whenever interpretation
(from a fresh drawing) succeeds, the very first Path starts at the origin laid
down before any symbol is processed. -/
theorem c5_interpret_F :
    (∀ (angle : ℝ) (color : RGBA),
        DrawLSys ⟨[]⟩ ['F'] 0 angle color false =
          some ⟨[⟨[⟨0, 0⟩, ⟨1, 0⟩], color⟩]⟩) ∧
    (∀ (s : List Char) (theta angle : ℝ) (color : RGBA) (onePath : Bool) (d : Drawing),
        DrawLSys ⟨[]⟩ s theta angle color onePath = some d →
        headPoint d = some ⟨0, 0⟩) := by
  constructor
  · intro angle color
    have hpt : PointFromTheta ⟨0, 0⟩ 0 1 = (⟨1, 0⟩ : FPoint) := by
      simp [PointFromTheta, ToRadians]
    have hrun : DrawLSys (⟨[]⟩ : Drawing) ['F'] 0 angle color false =
        some ⟨[⟨[⟨0, 0⟩, PointFromTheta ⟨0, 0⟩ 0 1], color⟩]⟩ := rfl
    rw [hrun, hpt]
  · intro s theta angle color onePath d h
    simp only [DrawLSys] at h
    cases hr : runSyms angle color onePath (initState ⟨[]⟩ theta color) s with
    | none => rw [hr] at h; simp at h
    | some stf =>
      rw [hr] at h
      simp only [Option.map_some', Option.some.injEq] at h
      subst h
      obtain ⟨pa, rest, hp, hh⟩ :=
        runSyms_origin angle color onePath s _ stf hr ⟨⟨[⟨0, 0⟩], color⟩, [], rfl, rfl⟩
      simp [headPoint, hp, hh]

/-- Claim C6: interpreting `F[+F]F` with singlePath=false, the state immediately
after the `]` symbol (the run over the prefix `F[+F]`) has exactly the position
and heading of the state immediately before the matching `[` (the run over the
prefix `F`), and the run over the full string is the run over `F[+F]` continued
by the remaining `F` — so the restoration is floating-point exact. -/
theorem c6_branch_restore (theta angle : ℝ) (color : RGBA) :
    (runSyms angle color false (initState ⟨[]⟩ theta color)
        ['F', '[', '+', 'F', ']']).map stProj =
      (runSyms angle color false (initState ⟨[]⟩ theta color) ['F']).map stProj ∧
    runSyms angle color false (initState ⟨[]⟩ theta color) ['F', '[', '+', 'F', ']', 'F'] =
      (runSyms angle color false (initState ⟨[]⟩ theta color) ['F', '[', '+', 'F', ']']).bind
        (fun st => runSyms angle color false st ['F']) :=
  ⟨rfl, rfl⟩

/-- Auxiliary: with onePath=true one interpreter step preserves the number of
paths of the drawing. -/
theorem drawStep_length (angle : ℝ) (color : RGBA) (st st2 : TState) (v : Char)
    (h : drawStep angle color true st v = some st2) :
    st2.drw.paths.length = st.drw.paths.length := by
  rcases drawStep_drw angle color true st st2 v h with hd | ⟨hfalse, -⟩ | ⟨pt, l2, happ, hd⟩
  · rw [hd]
  · exact absurd hfalse (by simp)
  · rw [hd]
    exact appendLast_length pt _ l2 happ

/-- Auxiliary: with onePath=true the whole interpreter loop preserves the number
of paths of the drawing. -/
theorem runSyms_length (angle : ℝ) (color : RGBA) (l : List Char) (st st2 : TState)
    (h : runSyms angle color true st l = some st2) :
    st2.drw.paths.length = st.drw.paths.length := by
  induction l generalizing st with
  | nil =>
    simp only [runSyms, Option.some.injEq] at h
    subst h
    rfl
  | cons v rest ih =>
    simp only [runSyms] at h
    cases hs : drawStep angle color true st v with
    | none => rw [hs] at h; simp at h
    | some st1 =>
      rw [hs] at h
      rw [ih st1 h, drawStep_length angle color st st1 v hs]

/-- Claim C7: whenever interpretation of a symbol string from a fresh drawing
with singlePath=true succeeds, the resulting Drawing contains exactly one Path:
neither `f` nor `]` opens a new path, so the path count stays at the 1 created
by the initial MoveTo, even though that single path may contain hidden
positional jumps. -/
theorem c7_single_path (s : List Char) (theta angle : ℝ) (color : RGBA) (d : Drawing)
    (h : DrawLSys ⟨[]⟩ s theta angle color true = some d) :
    d.paths.length = 1 := by
  simp only [DrawLSys] at h
  cases hr : runSyms angle color true (initState ⟨[]⟩ theta color) s with
  | none => rw [hr] at h; simp at h
  | some stf =>
    rw [hr] at h
    simp only [Option.map_some', Option.some.injEq] at h
    subst h
    rw [runSyms_length angle color s _ stf hr]
    rfl

/-- Witness for claim C5 at concrete inputs: turn angle 90, black, and the
output drawing of the first part feeding the second. -/
theorem c5_witness :
    DrawLSys ⟨[]⟩ ['F'] 0 90 ColorBLACK false =
      some ⟨[⟨[⟨0, 0⟩, ⟨1, 0⟩], ColorBLACK⟩]⟩ ∧
    headPoint ⟨[⟨[⟨0, 0⟩, ⟨1, 0⟩], ColorBLACK⟩]⟩ = some ⟨0, 0⟩ :=
  ⟨c5_interpret_F.1 90 ColorBLACK,
   c5_interpret_F.2 ['F'] 0 90 ColorBLACK false _ (c5_interpret_F.1 90 ColorBLACK)⟩

/-- Witness for claim C7 at a concrete input: the empty symbol string succeeds
and yields the single path laid down by the initial MoveTo. -/
theorem c7_witness : (Drawing.mk [⟨[⟨0, 0⟩], ColorBLACK⟩]).paths.length = 1 :=
  c7_single_path [] 0 0 ColorBLACK ⟨[⟨[⟨0, 0⟩], ColorBLACK⟩]⟩ rfl

/-! Theorems about the drawing transform engine. -/

/-- Auxiliary: the points visited by Traverse on a mapped drawing are the mapped
visited points. -/
theorem allPoints_mapDrawing (f : FPoint → FPoint) (d : Drawing) :
    allPoints (mapDrawing f d) = (allPoints d).map f := by
  cases d with
  | mk paths =>
    induction paths with
    | nil => rfl
    | cons pa rest ih =>
      simp only [allPoints, mapDrawing, List.map_cons, List.flatMap_cons,
        List.map_append] at *
      rw [ih]

/-- Auxiliary: a rectangle-valued map commuting with one widening step commutes
with the whole fold of `Bounds`. -/
theorem foldl_boundsStep_hom (f : FPoint → FPoint) (F : FRect → FRect)
    (hcomm : ∀ r pt, boundsStep (F r) (f pt) = F (boundsStep r pt)) :
    ∀ (l : List FPoint) (r : FRect),
      (l.map f).foldl boundsStep (F r) = F (l.foldl boundsStep r) := by
  intro l
  induction l with
  | nil => intro r; rfl
  | cons pt rest ih =>
    intro r
    simp only [List.map_cons, List.foldl_cons, hcomm]
    exact ih _

/-- Auxiliary: how `Bounds` transforms under a pointwise map of the drawing,
given a rectangle map that tracks it. -/
theorem Bounds_mapDrawing (f : FPoint → FPoint) (F : FRect → FRect)
    (hcomm : ∀ r pt, boundsStep (F r) (f pt) = F (boundsStep r pt))
    (hinit : ∀ q : FPoint, F ⟨q, q⟩ = ⟨f q, f q⟩)
    (d : Drawing) (r : FRect) (hb : Bounds d = some r) :
    Bounds (mapDrawing f d) = some (F r) := by
  cases hd : d.paths with
  | nil =>
    simp only [Bounds, hd] at hb
    exact Option.noConfusion hb
  | cons pa rest =>
    cases hq : pa.points with
    | nil =>
      simp only [Bounds, hd, hq] at hb
      exact Option.noConfusion hb
    | cons q qs =>
      simp only [Bounds, hd, hq, Option.some.injEq] at hb
      have hd2 : (mapDrawing f d).paths =
          Path.mk (pa.points.map f) pa.color ::
            rest.map (fun pb => ⟨pb.points.map f, pb.color⟩) := by
        simp [mapDrawing, hd]
      simp only [Bounds, hd2, hq, List.map_cons]
      rw [allPoints_mapDrawing, ← hinit q, foldl_boundsStep_hom f F hcomm, hb]

/-- Auxiliary: two pointwise maps compose. -/
theorem mapDrawing_mapDrawing (f g : FPoint → FPoint) (d : Drawing) :
    mapDrawing g (mapDrawing f d) = mapDrawing (fun pt => g (f pt)) d := by
  simp [mapDrawing, List.map_map, Function.comp]

/-- Auxiliary: a pointwise map fixing every point fixes the drawing. -/
theorem mapDrawing_id_of (f : FPoint → FPoint) (hf : ∀ pt, f pt = pt) (d : Drawing) :
    mapDrawing f d = d := by
  have hf2 : f = id := funext hf
  cases d with
  | mk paths =>
    induction paths with
    | nil => rfl
    | cons pa rest ih =>
      simp only [mapDrawing, List.map_cons, hf2, List.map_id] at *
      simp only [Drawing.mk.injEq, List.cons.injEq] at *
      exact ⟨trivial, ih⟩

/-- Auxiliary: min of two values moved by the same monotone affine map. -/
theorem min_affine (s dl a b : ℝ) (hs : 0 ≤ s) :
    min (a * s + dl) (b * s + dl) = min a b * s + dl := by
  rcases le_total a b with hab | hab
  · rw [min_eq_left hab, min_eq_left (by nlinarith)]
  · rw [min_eq_right hab, min_eq_right (by nlinarith)]

/-- Auxiliary: max of two values moved by the same monotone affine map. -/
theorem max_affine (s dl a b : ℝ) (hs : 0 ≤ s) :
    max (a * s + dl) (b * s + dl) = max a b * s + dl := by
  rcases le_total a b with hab | hab
  · rw [max_eq_right hab, max_eq_right (by nlinarith)]
  · rw [max_eq_left hab, max_eq_left (by nlinarith)]

/-- Auxiliary: min of two reflected values is the reflected max. -/
theorem min_reflect (A B a b : ℝ) : min (A - a + B) (A - b + B) = A - max a b + B := by
  rcases le_total a b with hab | hab
  · rw [max_eq_right hab, min_eq_right (by linarith)]
  · rw [max_eq_left hab, min_eq_left (by linarith)]

/-- Auxiliary: max of two reflected values is the reflected min. -/
theorem max_reflect (A B a b : ℝ) : max (A - a + B) (A - b + B) = A - min a b + B := by
  rcases le_total a b with hab | hab
  · rw [min_eq_left hab, max_eq_left (by linarith)]
  · rw [min_eq_right hab, max_eq_right (by linarith)]

/-- Auxiliary: `vflipRect db` tracks `VFlipPt db` through one widening step. -/
theorem boundsStep_vflip (db : FRect) (r : FRect) (pt : FPoint) :
    boundsStep (vflipRect db r) (VFlipPt db pt) = vflipRect db (boundsStep r pt) := by
  simp only [boundsStep, vflipRect, VFlipPt, FRect.mk.injEq, FPoint.mk.injEq]
  exact ⟨⟨trivial, min_reflect _ _ _ _⟩, trivial, max_reflect _ _ _ _⟩

/-- Auxiliary: `affRect s dl` tracks the scale-then-translate point map through
one widening step, for a nonnegative scale factor. -/
theorem boundsStep_aff (s : ℝ) (dl : FPoint) (hs : 0 ≤ s) (r : FRect) (pt : FPoint) :
    boundsStep (affRect s dl r) ⟨pt.x * s + dl.x, pt.y * s + dl.y⟩ =
      affRect s dl (boundsStep r pt) := by
  simp only [boundsStep, affRect, FRect.mk.injEq, FPoint.mk.injEq]
  exact ⟨⟨min_affine _ _ _ _ hs, min_affine _ _ _ _ hs⟩,
    max_affine _ _ _ _ hs, max_affine _ _ _ _ hs⟩

/-- Claim C9: calling Bounds on a Drawing with zero paths or zero points fails
(the code would index `Paths[0].Points[0]` out of range) rather than producing
any rectangle. -/
theorem c9_bounds_empty (d : Drawing) (h : d.paths = [] ∨ allPoints d = []) :
    Bounds d = none := by
  cases hd : d.paths with
  | nil => simp [Bounds, hd]
  | cons pa rest =>
    rcases h with h | h
    · rw [hd] at h
      simp at h
    · have hpts : pa.points = [] := by
        simp only [allPoints, hd, List.flatMap_cons, List.append_eq_nil] at h
        exact h.1
      simp [Bounds, hd, hpts]

/-- Witness for claim C9 at a concrete input: the drawing with no paths. -/
theorem c9_witness : Bounds ⟨[]⟩ = none :=
  c9_bounds_empty ⟨[]⟩ (Or.inl rfl)

/-- Auxiliary: a pointwise map keeps the path skeleton. -/
theorem shape_mapDrawing (f : FPoint → FPoint) (d : Drawing) :
    shape (mapDrawing f d) = shape d := by
  simp [shape, mapDrawing, List.map_map, Function.comp]

/-- Claim C10: the in-place transforms Translate, Scale and Flip modify only
point coordinates: the number of Paths, the number of Points in each Path, their
order and each Path's Color (the skeleton captured by `shape`) are unchanged. -/
theorem c10_transforms_shape (d : Drawing) (delta : FPoint) (s : ℝ) (v : Bool) :
    shape (Translate d delta) = shape d ∧ shape (Scale d s) = shape d ∧
    ∀ d2, Flip d v = some d2 → shape d2 = shape d := by
  refine ⟨shape_mapDrawing _ d, shape_mapDrawing _ d, ?_⟩
  intro d2 h
  simp only [Flip] at h
  cases hb : Bounds d with
  | none => rw [hb] at h; simp at h
  | some db =>
    rw [hb] at h
    simp only [Option.map_some', Option.some.injEq] at h
    subst h
    cases v <;> simp [shape_mapDrawing]

/-- Witness for claim C10 at a concrete input: a one-point drawing, for which
the vertical flip succeeds and fixes it. -/
theorem c10_witness :
    shape (Translate ⟨[⟨[⟨0, 0⟩], ColorBLACK⟩]⟩ ⟨1, 2⟩) = shape ⟨[⟨[⟨0, 0⟩], ColorBLACK⟩]⟩ ∧
    shape (Scale ⟨[⟨[⟨0, 0⟩], ColorBLACK⟩]⟩ 2) = shape ⟨[⟨[⟨0, 0⟩], ColorBLACK⟩]⟩ ∧
    shape ⟨[⟨[⟨0, 0⟩], ColorBLACK⟩]⟩ = shape (⟨[⟨[⟨0, 0⟩], ColorBLACK⟩]⟩ : Drawing) := by
  have h := c10_transforms_shape ⟨[⟨[⟨0, 0⟩], ColorBLACK⟩]⟩ ⟨1, 2⟩ 2 true
  refine ⟨h.1, h.2.1, h.2.2 ⟨[⟨[⟨0, 0⟩], ColorBLACK⟩]⟩ ?_⟩
  simp [Flip, Bounds, allPoints, boundsStep, mapDrawing, VFlipPt]

/-- Claim C8: for a Drawing satisfying the data-model invariant (at least one
path, every path with at least one point), the vertical Flip is an involution:
applying it twice, with bounds recomputed in between, returns every point (and
so the whole drawing) to its original value, exactly. -/
theorem c8_flip_involution (d : Drawing) (h1 : d.paths ≠ [])
    (h2 : ∀ pa ∈ d.paths, pa.points ≠ []) :
    ∃ d1, Flip d true = some d1 ∧ Flip d1 true = some d := by
  obtain ⟨db, hb⟩ : ∃ r, Bounds d = some r := by
    cases hd : d.paths with
    | nil => exact absurd hd h1
    | cons pa rest =>
      cases hq : pa.points with
      | nil =>
        exact absurd hq (h2 pa (by rw [hd]; exact List.mem_cons_self pa rest))
      | cons q qs =>
        exact ⟨(allPoints d).foldl boundsStep ⟨q, q⟩, by simp only [Bounds, hd, hq]⟩
  have hflip1 : Flip d true = some (mapDrawing (VFlipPt db) d) := by
    rw [Flip, hb]
    rfl
  have hb1 : Bounds (mapDrawing (VFlipPt db) d) = some (vflipRect db db) :=
    Bounds_mapDrawing (VFlipPt db) (vflipRect db) (boundsStep_vflip db)
      (fun q => rfl) d db hb
  have hdbdb : vflipRect db db = db := by
    ext <;> simp [vflipRect]
  rw [hdbdb] at hb1
  have hflip2 : Flip (mapDrawing (VFlipPt db) d) true =
      some (mapDrawing (VFlipPt db) (mapDrawing (VFlipPt db) d)) := by
    rw [Flip, hb1]
    rfl
  refine ⟨_, hflip1, ?_⟩
  rw [hflip2, mapDrawing_mapDrawing]
  exact congrArg some (mapDrawing_id_of _ (fun pt => by ext <;> simp [VFlipPt] <;> ring) d)

/-- Witness for claim C8 at a concrete input: a one-path two-point drawing. -/
theorem c8_witness :
    ∃ d1, Flip ⟨[⟨[⟨0, 0⟩, ⟨2, 3⟩], ColorBLACK⟩]⟩ true = some d1 ∧
      Flip d1 true = some ⟨[⟨[⟨0, 0⟩, ⟨2, 3⟩], ColorBLACK⟩]⟩ :=
  c8_flip_involution ⟨[⟨[⟨0, 0⟩, ⟨2, 3⟩], ColorBLACK⟩]⟩ (by simp) (by simp)

/-- Claim C1: for a Drawing with computable, non-degenerate bounds (positive
width and height), a target rectangle (min ≤ max componentwise, its data-model
invariant) and margin fractions in (0, 1/2), CenterWithMargin applies Scale with
the single uniform factor min(width fit after margins, height fit after margins)
and then Translate, after which the drawing's bounding box is fully contained in
the target rectangle and its center coincides with the target's center. -/
theorem c1_center_with_margin (d : Drawing) (tb : FRect) (tm : FPoint) (db : FRect)
    (hdb : Bounds d = some db)
    (hwx : db.min.x < db.max.x) (hwy : db.min.y < db.max.y)
    (hmx0 : 0 < tm.x) (hmx1 : tm.x < 1 / 2) (hmy0 : 0 < tm.y) (hmy1 : tm.y < 1 / 2)
    (htx : tb.min.x ≤ tb.max.x) (hty : tb.min.y ≤ tb.max.y) :
    ∃ d2 db2, CenterWithMargin d tb tm = some d2 ∧ Bounds d2 = some db2 ∧
      tb.min.x ≤ db2.min.x ∧ db2.max.x ≤ tb.max.x ∧
      tb.min.y ≤ db2.min.y ∧ db2.max.y ≤ tb.max.y ∧
      db2.min.x + db2.max.x = tb.min.x + tb.max.x ∧
      db2.min.y + db2.max.y = tb.min.y + tb.max.y := by
  set s := min
      (((tb.max.x - tb.min.x) - tm.x * 2 * (tb.max.x - tb.min.x)) / (db.max.x - db.min.x))
      (((tb.max.y - tb.min.y) - tm.y * 2 * (tb.max.y - tb.min.y)) / (db.max.y - db.min.y))
    with hs
  set dl : FPoint := ⟨(tb.max.x + tb.min.x) / 2 - (db.max.x * s + db.min.x * s) / 2,
                      (tb.max.y + tb.min.y) / 2 - (db.max.y * s + db.min.y * s) / 2⟩
    with hdl
  have hcm : CenterWithMargin d tb tm = some (Translate (Scale d s) dl) := by
    simp only [CenterWithMargin, hdb]
  have hwx2 : 0 < db.max.x - db.min.x := by linarith
  have hwy2 : 0 < db.max.y - db.min.y := by linarith
  have hnx : 0 ≤ (tb.max.x - tb.min.x) - tm.x * 2 * (tb.max.x - tb.min.x) := by nlinarith
  have hny : 0 ≤ (tb.max.y - tb.min.y) - tm.y * 2 * (tb.max.y - tb.min.y) := by nlinarith
  have hs0 : 0 ≤ s := le_min (div_nonneg hnx hwx2.le) (div_nonneg hny hwy2.le)
  have hsx : s * (db.max.x - db.min.x) ≤
      (tb.max.x - tb.min.x) - tm.x * 2 * (tb.max.x - tb.min.x) := by
    have h1 := mul_le_mul_of_nonneg_right (min_le_left _ _ : s ≤ _) hwx2.le
    rwa [div_mul_cancel₀ _ hwx2.ne'] at h1
  have hsy : s * (db.max.y - db.min.y) ≤
      (tb.max.y - tb.min.y) - tm.y * 2 * (tb.max.y - tb.min.y) := by
    have h1 := mul_le_mul_of_nonneg_right (min_le_right _ _ : s ≤ _) hwy2.le
    rwa [div_mul_cancel₀ _ hwy2.ne'] at h1
  have h2x : 0 ≤ tm.x * 2 * (tb.max.x - tb.min.x) :=
    mul_nonneg (by linarith) (by linarith)
  have h2y : 0 ≤ tm.y * 2 * (tb.max.y - tb.min.y) :=
    mul_nonneg (by linarith) (by linarith)
  have heq : Translate (Scale d s) dl =
      mapDrawing (fun pt => ⟨pt.x * s + dl.x, pt.y * s + dl.y⟩) d := by
    rw [Translate, Scale, mapDrawing_mapDrawing]
    rfl
  have hbd2 : Bounds (Translate (Scale d s) dl) = some (affRect s dl db) := by
    rw [heq]
    exact Bounds_mapDrawing _ (affRect s dl) (boundsStep_aff s dl hs0)
      (fun q => rfl) d db hdb
  refine ⟨_, affRect s dl db, hcm, hbd2, ?_, ?_, ?_, ?_, ?_, ?_⟩ <;>
    simp only [affRect, hdl] <;>
    [linarith; linarith; linarith; linarith; ring; ring]

/-- Witness for claim C1 at concrete inputs: the unit-diagonal drawing centered
into the 10 by 10 square with quarter margins. -/
theorem c1_witness :
    ∃ d2 db2,
      CenterWithMargin ⟨[⟨[⟨0, 0⟩, ⟨1, 1⟩], ColorBLACK⟩]⟩
          ⟨⟨0, 0⟩, ⟨10, 10⟩⟩ ⟨1 / 4, 1 / 4⟩ = some d2 ∧
        Bounds d2 = some db2 ∧
        (0 : ℝ) ≤ db2.min.x ∧ db2.max.x ≤ 10 ∧
        (0 : ℝ) ≤ db2.min.y ∧ db2.max.y ≤ 10 ∧
        db2.min.x + db2.max.x = 0 + 10 ∧ db2.min.y + db2.max.y = 0 + 10 :=
  c1_center_with_margin ⟨[⟨[⟨0, 0⟩, ⟨1, 1⟩], ColorBLACK⟩]⟩ ⟨⟨0, 0⟩, ⟨10, 10⟩⟩
    ⟨1 / 4, 1 / 4⟩ ⟨⟨0, 0⟩, ⟨1, 1⟩⟩
    (by norm_num [Bounds, allPoints, boundsStep, min_def, max_def])
    (by norm_num) (by norm_num) (by norm_num) (by norm_num) (by norm_num)
    (by norm_num) (by norm_num) (by norm_num)

end Lsys
